import Mathlib

/-!
Verification development for the ChoreBot repository (Slack chore-assignment
bot).  The definitions below are a shallow embedding of the newest variant of
the source (the SQLite-backed `index.js` found in the repository), with the
external I/O (Slack transport, cron scheduling, SQLite persistence) replaced by
explicit parameters: the assignment store is a `List Assignment`, the current
month/week strings and the current instant are inputs, and the
`Math.random()` tie-break draws are an oracle `picks : Nat → Nat` whose value
is reduced modulo the candidate-list length (mirroring
`Math.floor(Math.random() * candidates.length)`).

Instants are modelled at minute granularity as minutes elapsed since an epoch
that falls on a Sunday 00:00 of the bot's configured timezone, so that
dayjs's Sunday-started weeks become arithmetic modulo `10080` minutes.
-/

namespace ChoreBot

/-- A roster entry, from `config.roommates` (`{ slackId, name }`). -/
structure Roommate where
  slackId : String
  name : String
deriving DecidableEq, Repr

/-- A chore's recurrence rule, from `config.chores[].due`
(`weekday` is `0..6`, or `-1` for manually triggered chores). -/
structure Due where
  weekday : Int
  hour : Nat
  minute : Nat
deriving DecidableEq, Repr

/-- A configured chore (`{ title, due }`). -/
structure Chore where
  title : String
  due : Due
deriving DecidableEq, Repr

/-- One row of the `chore_assignments` store, as surfaced by `loadHistory`.
`assignedTo` is always a list (the legacy scalar shape is normalised by the
`Array.isArray` checks in the source, so list form is the invariant shape);
timestamps (`date`, `dueDate`, `completedDate`) are minutes since the epoch. -/
structure Assignment where
  id : Nat
  month : String
  week : String
  chore : String
  assignedTo : List String
  assigneeNames : List String
  date : Nat
  dueDate : Option Nat
  completed : Bool
  completedBy : List String
  completedDate : Option Nat
  isShared : Bool
  triggeredBy : Option String
deriving DecidableEq, Repr

/-- The loaded configuration (`config.json`). -/
structure Config where
  roommates : List Roommate
  chores : List Chore
deriving DecidableEq, Repr

/-! ## Due-Date Calculator (`getNextDueDate`) -/

/-- Minutes in one week (the allocator's cycle length). -/
def minutesPerWeek : Nat := 10080

/-- Start of the (Sunday-based) week containing instant `t`, as dayjs
computes it for `.day(w)`. -/
def weekStart (t : Nat) : Nat := t - t % minutesPerWeek

/-- The instant obtained from `targetWeek.day(weekday).hour(h).minute(m).second(0)`
in `getNextDueDate`: the configured weekday/hour/minute inside the week of
`target`. -/
def rawDueDate (due : Due) (target : Nat) : Nat :=
  weekStart target + due.weekday.toNat * 1440 + due.hour * 60 + due.minute

/-- Embedding of `getNextDueDate(due, weekOffset)` evaluated at instant `now`:
manual chores (`weekday === -1`) get no due date; otherwise the configured
weekday/time inside the target week, rolled forward one week when the
computed instant for the current week (`weekOffset == 0`) is already past. -/
def getNextDueDate (due : Due) (weekOffset : Nat) (now : Nat) : Option Nat :=
  if due.weekday = -1 then none
  else
    let target := now + weekOffset * minutesPerWeek
    let nextDue := rawDueDate due target
    if weekOffset = 0 ∧ nextDue < now then some (nextDue + minutesPerWeek)
    else some nextDue

/-! ## Fairness Allocator (`findNextAssignee`, `assignChores`) -/

/-- Credit one record contributes to each of its assignees in
`findNextAssignee`:
`const isShared = h.isShared || assigneeIds.length > 1;`
`const creditPerPerson = isShared ? 0.5 : 1;`. -/
def creditPerPerson (h : Assignment) : ℚ :=
  if h.isShared = true ∨ 1 < h.assignedTo.length then 1/2 else 1

/-- Contribution of one history record to the `monthlyCounts[pid]` cell:
the inner `assigneeIds.forEach` loop adds `creditPerPerson` whenever the
iterated id equals `pid` and is a roster key
(`monthlyCounts[assigneeId] !== undefined`). -/
def recordCreditTo (rosterIds : List String) (pid : String) (h : Assignment) : ℚ :=
  h.assignedTo.foldl
    (fun acc aid => if aid = pid ∧ aid ∈ rosterIds then acc + creditPerPerson h else acc) 0

/-- The `monthlyCounts[pid]` cell computed by `findNextAssignee` /
`findMultipleAssignees`: fold the per-record contributions over the records
of the current month. -/
def monthlyCount (rosterIds : List String) (month : String) (hist : List Assignment)
    (pid : String) : ℚ :=
  (hist.filter (fun h => decide (h.month = month))).foldl
    (fun acc h => acc + recordCreditTo rosterIds pid h) 0

/-- Minimum of a list of rationals (`Math.min(...Object.values(monthlyCounts))`);
`none` on the empty list (where JS would yield `Infinity`). -/
def listMinQ : List ℚ → Option ℚ
  | [] => none
  | x :: xs => some (xs.foldl min x)

/-- Embedding of `findNextAssignee(chore, history)`: build the monthly credit
counts, keep the roommates attaining the minimum, and pick one of them with
the random draw `pick` (reduced modulo the candidate count, as
`Math.floor(Math.random() * candidates.length)` always lands in range).
Returns `none` exactly when the roster is empty, where the source would
produce `undefined`. -/
def findNextAssignee (roommates : List Roommate) (month : String) (hist : List Assignment)
    (pick : Nat) : Option Roommate :=
  let rosterIds := roommates.map (·.slackId)
  match listMinQ (roommates.map (fun r => monthlyCount rosterIds month hist r.slackId)) with
  | none => none
  | some m =>
    let candidates := roommates.filter (fun r =>
      decide (monthlyCount rosterIds month hist r.slackId = m))
    candidates.get? (pick % candidates.length)

/-- Embedding of the batch de-duplication loop in `assignChores`:
`while (assignedPeopleThisWeek.has(assignee.slackId) && attempts < config.roommates.length)`
re-draws a fresh `findNextAssignee` result.  `fuel` is the number of attempts
still allowed, `idx` the next unused index into the random oracle; the result
pairs the final assignee with the next unused oracle index.  The `none`
branch (empty roster) mirrors where the source would crash; it is unreachable
whenever the loop is entered, because the initial selection already
succeeded. -/
def retrySelect (roommates : List Roommate) (month : String) (hist : List Assignment)
    (assigned : List String) (picks : Nat → Nat) : Nat → Nat → Roommate → Roommate × Nat
  | idx, 0, a => (a, idx)
  | idx, fuel + 1, a =>
    if a.slackId ∈ assigned then
      match findNextAssignee roommates month hist (picks idx) with
      | none => (a, idx + 1)
      | some a2 => retrySelect roommates month hist assigned picks (idx + 1) fuel a2
    else (a, idx)

/-- The records `assignChores` treats as this cycle's pending assignments:
`history.filter(h => h.week === currentWeek)` then `.filter(h => !h.completed)`. -/
def pendingThisWeek (week : String) (hist : List Assignment) : List Assignment :=
  (hist.filter (fun h => decide (h.week = week))).filter (fun h => !h.completed)

/-- Mutable state of one `assignChores` run: the batch built so far, the
`assignedPeopleThisWeek` set (as a list), the next unused random-oracle
index, and the next store id (SQLite `AUTOINCREMENT`). -/
structure RunState where
  assignments : List Assignment
  assignedPeople : List String
  pickIdx : Nat
  nextId : Nat
deriving Repr

/-- Body of the `for (const chore of config.chores)` loop in `assignChores`:
skip manual chores and chores already completed this week, otherwise select
an assignee (with the bounded de-duplication retries) and append a fresh
single-assignee record. -/
def assignOne (cfg : Config) (month week : String) (now weekOffset : Nat)
    (hist allWeek : List Assignment) (picks : Nat → Nat) (st : RunState)
    (chore : Chore) : RunState :=
  if chore.due.weekday = -1 then st
  else if allWeek.any (fun h => decide (h.chore = chore.title ∧ h.completed = true)) then st
  else
    match findNextAssignee cfg.roommates month hist (picks st.pickIdx) with
    | none => st
    | some a0 =>
      let sel := retrySelect cfg.roommates month hist st.assignedPeople picks
        (st.pickIdx + 1) cfg.roommates.length a0
      let newRec : Assignment :=
        { id := st.nextId, month := month, week := week, chore := chore.title
          assignedTo := [sel.1.slackId], assigneeNames := [sel.1.name]
          date := now, dueDate := getNextDueDate chore.due weekOffset now
          completed := false, completedBy := [], completedDate := none
          isShared := false, triggeredBy := none }
      { assignments := st.assignments ++ [newRec]
        assignedPeople := st.assignedPeople ++ [sel.1.slackId]
        pickIdx := sel.2, nextId := st.nextId + 1 }

/-- Embedding of `assignChores(isManual, weekOffset)` over an explicit store:
returns the list the function returns together with the store after the run
(`loadHistory` plus every `saveAssignment`).  Early-returns the pending
records when some exist and the call is not manual; returns `[]` when every
scheduled chore already has a completed record this week; otherwise runs the
per-chore assignment loop (note the source never pushes the new records into
its local `history`, so selections within one run all see the same counts). -/
def assignChores (cfg : Config) (hist : List Assignment) (isManual : Bool)
    (month week : String) (now weekOffset : Nat) (picks : Nat → Nat) (nextId : Nat) :
    List Assignment × List Assignment :=
  let allWeek := hist.filter (fun h => decide (h.week = week))
  let incomplete := pendingThisWeek week hist
  if 0 < incomplete.length ∧ isManual = false then (incomplete, hist)
  else
    let scheduled := cfg.chores.filter (fun c => decide (c.due.weekday ≠ -1))
    let completedScheduled := scheduled.filter (fun c =>
      allWeek.any (fun h => decide (h.chore = c.title ∧ h.completed = true)))
    if scheduled.length ≤ completedScheduled.length then ([], hist)
    else
      let final := cfg.chores.foldl
        (assignOne cfg month week now weekOffset hist allWeek picks)
        ⟨[], [], 0, nextId⟩
      (final.assignments, hist ++ final.assignments)

/-- Spec-side load count, written from the specification's words for
comparison with `monthlyCount`: every in-window record containing the person
contributes `1 / |assignees|`. -/
def specLoadCount (month : String) (hist : List Assignment) (pid : String) : ℚ :=
  ((hist.filter (fun h => decide (h.month = month ∧ pid ∈ h.assignedTo))).map
    (fun h => 1 / (h.assignedTo.length : ℚ))).sum

/-! ## Ad-hoc trigger path (`handleChoreAssignment`) -/

/-- Lower-cased character list of a string (`title.toLowerCase()`). -/
def lowerChars (s : String) : List Char := s.data.map Char.toLower

/-- Case-insensitive substring test used by the ad-hoc chore lookup
(`c.title.toLowerCase().includes(key)`, with `key` a lowercase literal). -/
def titleContains (title key : String) : Bool :=
  (lowerChars title).tails.any (fun t => key.data.isPrefixOf t)

/-- The chore lookup at the top of `handleChoreAssignment`: the first
configured chore whose title contains "trash" (resp. "dish"), depending on
the trigger type. -/
def choreLookup (cfg : Config) (choreType : String) : Option Chore :=
  if choreType = "trash" then cfg.chores.find? (fun c => titleContains c.title "trash")
  else if choreType = "dishwasher" then cfg.chores.find? (fun c => titleContains c.title "dish")
  else none

/-- Embedding of `handleChoreAssignment(choreType, assignees, triggeredBy)`:
when a matching chore exists, append one record carrying the selected user
list (possibly several assignees) with no due date and an empty
`completedBy`; otherwise report the error and leave the store unchanged. -/
def handleChoreAssignment (cfg : Config) (choreType : String) (assignees : List Roommate)
    (triggeredBy : String) (month week : String) (now : Nat) (nextId : Nat)
    (hist : List Assignment) : List Assignment :=
  match choreLookup cfg choreType with
  | none => hist
  | some chore =>
    hist ++ [{ id := nextId, month := month, week := week, chore := chore.title
               assignedTo := assignees.map (·.slackId)
               assigneeNames := assignees.map (·.name)
               date := now, dueDate := none, completed := false, completedBy := []
               completedDate := none, isShared := false, triggeredBy := some triggeredBy }]

/-! ## Completion Tracker (`app.message('done')` and the `complete_` action) -/

/-- Outcome of processing a "done" direct message. -/
inductive DoneOutcome where
  | noPending : DoneOutcome
  | updated : Assignment → DoneOutcome
  | disambiguate : List Assignment → DoneOutcome
deriving DecidableEq, Repr

/-- The pending assignments of `u` this week, as filtered by the
`app.message('done')` handler: same week, not completed, and `u` among the
assignees. -/
def doneMatches (u week : String) (hist : List Assignment) : List Assignment :=
  hist.filter (fun h => decide (h.week = week ∧ h.completed = false ∧ u ∈ h.assignedTo))

/-- The single-record update of the `app.message('done')` handler (newest
variant): add `u` to `completedBy` unless already present, then, when every
assignee is in the new `completedBy`, flip `completed` and stamp
`completedDate`; all other fields (and `completed`/`completedDate` in the
partial case) are untouched, as `updateAssignment` writes only the fields in
`updates`. -/
def applyDoneMessage (u : String) (now : Nat) (r : Assignment) : Assignment :=
  let cb := if u ∈ r.completedBy then r.completedBy else r.completedBy ++ [u]
  let allComplete := r.assignedTo.all (fun aid => decide (aid ∈ cb))
  { r with completedBy := cb
           completed := if allComplete then true else r.completed
           completedDate := if allComplete then some now else r.completedDate }

/-- The remaining-assignee list reported by the handlers:
`allAssignees.filter(id => !assignment.completedBy.includes(id))`. -/
def remainingOf (r : Assignment) : List String :=
  r.assignedTo.filter (fun aid => decide (aid ∉ r.completedBy))

/-- Embedding of the `app.message('done')` handler over an explicit store:
zero matches answer "no pending chores" and mutate nothing; exactly one
match is updated in place (`updateAssignment` keyed by the row id); several
matches yield the disambiguation prompt listing them, deferring any update. -/
def processDone (u week : String) (now : Nat) (hist : List Assignment) :
    DoneOutcome × List Assignment :=
  match doneMatches u week hist with
  | [] => (.noPending, hist)
  | [a] => (.updated (applyDoneMessage u now a),
            hist.map (fun r => if r.id = a.id then applyDoneMessage u now r else r))
  | ms => (.disambiguate ms, hist)

/-- The record selected by the `complete_` button handler: the first history
row with the chosen week and chore title that is still pending and assigned
to the clicking user. -/
def completeMatch (u week chore : String) (hist : List Assignment) : Option Assignment :=
  hist.find? (fun h =>
    decide (h.week = week ∧ h.chore = chore ∧ h.completed = false ∧ u ∈ h.assignedTo))

/-- The record update performed by the `app.action(/complete_\d+/)` handler;
the source duplicates the message-handler code verbatim, so this definition
mirrors those lines separately to compare the two paths. -/
def applyDoneButton (u : String) (now : Nat) (r : Assignment) : Assignment :=
  let cb := if u ∈ r.completedBy then r.completedBy else r.completedBy ++ [u]
  let allComplete := r.assignedTo.all (fun aid => decide (aid ∈ cb))
  { r with completedBy := cb
           completed := if allComplete then true else r.completed
           completedDate := if allComplete then some now else r.completedDate }

/-- Embedding of the `complete_` button handler over an explicit store. -/
def processComplete (u week chore : String) (now : Nat) (hist : List Assignment) :
    Option Assignment × List Assignment :=
  match completeMatch u week chore hist with
  | none => (none, hist)
  | some a => (some (applyDoneButton u now a),
               hist.map (fun r => if r.id = a.id then applyDoneButton u now r else r))

/-! ## Store invariant -/

/-- The data-model invariant `completedBy ⊆ assignees`, for every record of
the store. -/
def InvStore (hist : List Assignment) : Prop :=
  ∀ r ∈ hist, ∀ uid ∈ r.completedBy, uid ∈ r.assignedTo

instance : DecidablePred InvStore := fun hist =>
  inferInstanceAs (Decidable (∀ r ∈ hist, ∀ uid ∈ r.completedBy, uid ∈ r.assignedTo))

/-! ## Concrete sample data, used by counterexamples and witnesses -/

/-- A three-person shared record: the source credits each participant `0.5`
for it, while the specification's formula would credit `1/3`. -/
def rec3 : Assignment :=
  { id := 0, month := "M", week := "W", chore := "c", assignedTo := ["a","b","c"]
    assigneeNames := ["A","B","C"], date := 0, dueDate := none, completed := true
    completedBy := ["a","b","c"], completedDate := some 0, isShared := true
    triggeredBy := none }

/-- Two-person roster for the batch de-duplication counterexample. -/
def cexRoster : List Roommate := [⟨"A", "Alice"⟩, ⟨"B", "Bob"⟩]

/-- Two scheduled chores for the two-person roster. -/
def cexConfig : Config :=
  ⟨cexRoster, [⟨"chore1", ⟨1, 9, 0⟩⟩, ⟨"chore2", ⟨2, 9, 0⟩⟩]⟩

/-- History in which Bob already holds one prior (earlier-week) assignment,
so Alice is the unique minimum-credit candidate for every selection. -/
def cexHist : List Assignment :=
  [{ id := 0, month := "M", week := "W0", chore := "chore1", assignedTo := ["B"]
     assigneeNames := ["Bob"], date := 0, dueDate := none, completed := true
     completedBy := ["B"], completedDate := some 0, isShared := false
     triggeredBy := none }]

/-- A pending week-`W1` record, for the idempotent re-run witness. -/
def recPend : Assignment :=
  { id := 3, month := "M", week := "W1", chore := "chore1", assignedTo := ["A"]
    assigneeNames := ["Alice"], date := 0, dueDate := none, completed := false
    completedBy := [], completedDate := none, isShared := false, triggeredBy := none }

/-- Store holding exactly the pending record `recPend`. -/
def histPend : List Assignment := [recPend]

/-- A pending two-person shared record assigned to `a` and `b`. -/
def recC5 : Assignment :=
  { id := 1, month := "M", week := "W", chore := "dishes", assignedTo := ["a","b"]
    assigneeNames := ["A","B"], date := 0, dueDate := none, completed := false
    completedBy := [], completedDate := none, isShared := true, triggeredBy := none }

/-- Store holding exactly `recC5`. -/
def histC5 : List Assignment := [recC5]

/-- First of two pending chores held by `a` in week `W`. -/
def recC6a : Assignment :=
  { id := 1, month := "M", week := "W", chore := "dishes", assignedTo := ["a"]
    assigneeNames := ["A"], date := 0, dueDate := none, completed := false
    completedBy := [], completedDate := none, isShared := false, triggeredBy := none }

/-- Second of two pending chores held by `a` in week `W`. -/
def recC6b : Assignment :=
  { id := 2, month := "M", week := "W", chore := "vacuum", assignedTo := ["a"]
    assigneeNames := ["A"], date := 0, dueDate := none, completed := false
    completedBy := [], completedDate := none, isShared := false, triggeredBy := none }

/-- Store in which `a` holds two pending assignments this week. -/
def histC6 : List Assignment := [recC6a, recC6b]

/-- One-person, one-scheduled-chore configuration. -/
def cfgC7 : Config := ⟨[⟨"A", "Alice"⟩], [⟨"chore1", ⟨1, 9, 0⟩⟩]⟩

/-- Store in which the only scheduled chore is completed for week `W` but a
pending ad-hoc record remains. -/
def histC7 : List Assignment :=
  [{ id := 0, month := "M", week := "W", chore := "chore1", assignedTo := ["A"]
     assigneeNames := ["Alice"], date := 0, dueDate := none, completed := true
     completedBy := ["A"], completedDate := some 0, isShared := false, triggeredBy := none },
   { id := 1, month := "M", week := "W", chore := "chore1", assignedTo := ["A"]
     assigneeNames := ["Alice"], date := 0, dueDate := none, completed := false
     completedBy := [], completedDate := none, isShared := false, triggeredBy := some "A" }]

/-- Store in which the only scheduled chore is completed for week `W` and
nothing is pending. -/
def histC7w : List Assignment :=
  [{ id := 0, month := "M", week := "W", chore := "chore1", assignedTo := ["A"]
     assigneeNames := ["Alice"], date := 0, dueDate := none, completed := true
     completedBy := ["A"], completedDate := some 0, isShared := false, triggeredBy := none }]

/-- History with one two-person shared record and one solo record,
exercising the regime where code credit and spec credit agree. -/
def histC1 : List Assignment :=
  [{ id := 0, month := "M", week := "W", chore := "bins", assignedTo := ["a","b"]
     assigneeNames := ["A","B"], date := 0, dueDate := none, completed := true
     completedBy := ["a","b"], completedDate := some 0, isShared := true, triggeredBy := none },
   { id := 1, month := "M", week := "W", chore := "trash", assignedTo := ["b"]
     assigneeNames := ["B"], date := 0, dueDate := none, completed := true
     completedBy := ["b"], completedDate := some 0, isShared := false, triggeredBy := none }]

/-! ## Helper lemmas -/

theorem weekStart_le (t : Nat) : weekStart t ≤ t := Nat.sub_le _ _

theorem lt_weekStart_add_week (t : Nat) : t < weekStart t + minutesPerWeek := by
  unfold weekStart minutesPerWeek
  omega

theorem weekStart_le_rawDueDate (due : Due) (t : Nat) : weekStart t ≤ rawDueDate due t := by
  unfold rawDueDate
  omega

/-! ## Claim theorems -/

/-- C4: for `cycleOffset 0`, whenever the weekday/time instant computed
inside the reference week is before the reference instant, `getNextDueDate`
adds one full 7-day cycle, and the returned due timestamp is never before
the reference; in particular a chore due Monday 10:00 evaluated at Monday
11:00 yields the following Monday 10:00. -/
theorem dueDate_never_past :
    (∀ due now d, getNextDueDate due 0 now = some d → now ≤ d) ∧
    (∀ due now, due.weekday ≠ -1 → rawDueDate due now < now →
      getNextDueDate due 0 now = some (rawDueDate due now + minutesPerWeek)) ∧
    getNextDueDate ⟨1, 10, 0⟩ 0 2100 = some 12120 := by
  refine ⟨?_, ?_, by decide⟩
  · intro due now d h
    unfold getNextDueDate at h
    split at h
    · simp at h
    · simp only [Nat.zero_mul, Nat.add_zero] at h
      have h1 := weekStart_le_rawDueDate due now
      have h2 := lt_weekStart_add_week now
      split at h
      · simp only [Option.some.injEq] at h
        omega
      · simp only [Option.some.injEq] at h
        next hc =>
          have : ¬ rawDueDate due now < now := fun hlt => hc ⟨by trivial, hlt⟩
          omega
  · intro due now hw hlt
    unfold getNextDueDate
    rw [if_neg hw]
    simp only [Nat.zero_mul, Nat.add_zero]
    rw [if_pos ⟨by trivial, hlt⟩]

/-- Witness for `dueDate_never_past` at the Monday example. -/
theorem dueDate_never_past_witness : (2100 : Nat) ≤ 12120 :=
  dueDate_never_past.1 ⟨1, 10, 0⟩ 2100 12120 (by decide)

/-- C10: the newest variant's completion update is idempotent per person:
an id already in `completedBy` is not appended again, and applying the
update twice (with the same instant) equals applying it once, on both the
message path and the button path. -/
theorem markDone_idempotent :
    (∀ u (now : Nat) r, u ∈ r.completedBy →
      (applyDoneMessage u now r).completedBy = r.completedBy) ∧
    (∀ u (now : Nat) r,
      applyDoneMessage u now (applyDoneMessage u now r) = applyDoneMessage u now r) ∧
    (∀ u (now : Nat) r,
      applyDoneButton u now (applyDoneButton u now r) = applyDoneButton u now r) := by
  have hbm : ∀ u (now : Nat) r, applyDoneButton u now r = applyDoneMessage u now r :=
    fun _ _ _ => rfl
  have hmem : ∀ u (now : Nat) r, u ∈ (applyDoneMessage u now r).completedBy := by
    intro u now r
    unfold applyDoneMessage
    by_cases hm : u ∈ r.completedBy <;> simp [hm]
  have hcb : ∀ u (now : Nat) r, u ∈ r.completedBy →
      (applyDoneMessage u now r).completedBy = r.completedBy := by
    intro u now r hm
    unfold applyDoneMessage
    simp [hm]
  have key : ∀ u (now : Nat) r,
      applyDoneMessage u now (applyDoneMessage u now r) = applyDoneMessage u now r := by
    intro u now r
    have h1 := hmem u now r
    have h2 := hcb u now (applyDoneMessage u now r) h1
    unfold applyDoneMessage at h2 ⊢
    by_cases hm : u ∈ r.completedBy <;>
      by_cases hall : r.assignedTo.all
        (fun aid => decide (aid ∈ (if u ∈ r.completedBy then r.completedBy
          else r.completedBy ++ [u]))) = true <;>
      simp_all
  exact ⟨hcb, key, fun u now r => by rw [hbm, hbm, key]⟩

/-- Witness for `markDone_idempotent` on a record that already carries the
sender's confirmation. -/
theorem markDone_idempotent_witness :
    (applyDoneMessage "a" 5 rec3).completedBy = rec3.completedBy :=
  markDone_idempotent.1 "a" 5 rec3 (by decide)

/-- C3: re-running the allocator within the same cycle without the manual
flag returns the existing pending records unchanged and adds nothing to the
store. -/
theorem assignChores_rerun_idempotent (cfg : Config) (hist : List Assignment)
    (month week : String) (now weekOffset : Nat) (picks : Nat → Nat) (nextId : Nat)
    (h : pendingThisWeek week hist ≠ []) :
    assignChores cfg hist false month week now weekOffset picks nextId
      = (pendingThisWeek week hist, hist) := by
  unfold assignChores
  rw [if_pos ⟨List.length_pos.mpr h, by trivial⟩]

/-- Witness for `assignChores_rerun_idempotent` on a store with one pending
record. -/
theorem assignChores_rerun_idempotent_witness :
    pendingThisWeek "W1" histPend ≠ [] ∧
    assignChores cexConfig histPend false "M" "W1" 0 0 (fun _ => 0) 9
      = (pendingThisWeek "W1" histPend, histPend) :=
  ⟨by decide,
   assignChores_rerun_idempotent cexConfig histPend "M" "W1" 0 0 (fun _ => 0) 9 (by decide)⟩

theorem applyDoneMessage_assignedTo (u : String) (now : Nat) (r : Assignment) :
    (applyDoneMessage u now r).assignedTo = r.assignedTo := rfl

theorem mem_applyDoneMessage_completedBy (u : String) (now : Nat) (r : Assignment) :
    u ∈ (applyDoneMessage u now r).completedBy := by
  unfold applyDoneMessage
  by_cases hm : u ∈ r.completedBy <;> simp [hm]

theorem applyDoneMessage_completedBy_cases (u : String) (now : Nat) (r : Assignment) :
    ∀ v ∈ (applyDoneMessage u now r).completedBy, v ∈ r.completedBy ∨ v = u := by
  intro v hv
  unfold applyDoneMessage at hv
  by_cases hm : u ∈ r.completedBy <;> simp [hm] at hv
  · exact Or.inl hv
  · exact hv

theorem applyDoneMessage_completed_iff (u : String) (now : Nat) (r : Assignment)
    (hc : r.completed = false) :
    (applyDoneMessage u now r).completed = true ↔
      ∀ aid ∈ r.assignedTo, aid ∈ (applyDoneMessage u now r).completedBy := by
  unfold applyDoneMessage
  by_cases hall : r.assignedTo.all
      (fun aid => decide (aid ∈ (if u ∈ r.completedBy then r.completedBy
        else r.completedBy ++ [u]))) = true <;>
    simp only [List.all_eq_true, decide_eq_true_eq] at hall <;>
    simp [hall, hc, List.all_eq_true, decide_eq_true_eq]

theorem applyDoneMessage_completedDate_iff (u : String) (now : Nat) (r : Assignment)
    (hc : r.completed = false) (hd : r.completedDate = none) :
    (applyDoneMessage u now r).completedDate = some now ↔
      (applyDoneMessage u now r).completed = true := by
  unfold applyDoneMessage
  by_cases hall : r.assignedTo.all
      (fun aid => decide (aid ∈ (if u ∈ r.completedBy then r.completedBy
        else r.completedBy ++ [u]))) = true <;>
    simp [hall, hc, hd]

theorem doneMatches_single_facts (u week : String) (hist : List Assignment)
    (a : Assignment) (hm : doneMatches u week hist = [a]) :
    a ∈ hist ∧ a.week = week ∧ a.completed = false ∧ u ∈ a.assignedTo := by
  have ha : a ∈ doneMatches u week hist := by rw [hm]; exact List.mem_singleton_self a
  unfold doneMatches at ha
  have := List.mem_filter.mp ha
  simp only [decide_eq_true_eq] at this
  exact ⟨this.1, this.2.1, this.2.2.1, this.2.2.2⟩

/-- C5: on a completion signal matching exactly one pending record, the
tracker adds the sender to `completedBy`; the record becomes `completed`
exactly when every assignee is in `completedBy`, the completion timestamp is
stamped exactly then, and the reported remaining set is the assignees not
yet in `completedBy`. -/
theorem tracker_single_match (u week : String) (now : Nat) (hist : List Assignment)
    (a : Assignment) (hm : doneMatches u week hist = [a]) (hd : a.completedDate = none) :
    processDone u week now hist
        = (.updated (applyDoneMessage u now a),
           hist.map (fun r => if r.id = a.id then applyDoneMessage u now r else r)) ∧
    u ∈ (applyDoneMessage u now a).completedBy ∧
    ((applyDoneMessage u now a).completed = true ↔
      ∀ aid ∈ a.assignedTo, aid ∈ (applyDoneMessage u now a).completedBy) ∧
    ((applyDoneMessage u now a).completedDate = some now ↔
      (applyDoneMessage u now a).completed = true) ∧
    remainingOf (applyDoneMessage u now a)
      = a.assignedTo.filter
          (fun aid => decide (aid ∉ (applyDoneMessage u now a).completedBy)) := by
  obtain ⟨-, -, hc, -⟩ := doneMatches_single_facts u week hist a hm
  refine ⟨?_, mem_applyDoneMessage_completedBy u now a,
    applyDoneMessage_completed_iff u now a hc,
    applyDoneMessage_completedDate_iff u now a hc hd, rfl⟩
  unfold processDone
  rw [hm]

/-- Witness for `tracker_single_match` on a pending shared record. -/
theorem tracker_single_match_witness :
    doneMatches "a" "W" histC5 = [recC5] ∧
    "a" ∈ (applyDoneMessage "a" 7 recC5).completedBy :=
  ⟨by decide, (tracker_single_match "a" "W" 7 histC5 recC5 (by decide) (by decide)).2.1⟩

/-- C6: with several pending matches the tracker returns the disambiguation
prompt listing them and mutates nothing; the narrower `(week, chore)` button
call performs exactly the same update as the single-match path. -/
theorem tracker_disambiguation (u week : String) (now : Nat)
    (hist ms : List Assignment) (hm : doneMatches u week hist = ms)
    (h2 : 2 ≤ ms.length) :
    processDone u week now hist = (.disambiguate ms, hist) ∧
    (∀ v (t : Nat) r, applyDoneButton v t r = applyDoneMessage v t r) ∧
    (∀ chore a, completeMatch u week chore hist = some a →
      processComplete u week chore now hist
        = (some (applyDoneButton u now a),
           hist.map (fun r => if r.id = a.id then applyDoneButton u now r else r))) := by
  refine ⟨?_, fun _ _ _ => rfl, ?_⟩
  · unfold processDone
    rw [hm]
    match ms, h2 with
    | m1 :: m2 :: rest, _ => rfl
  · intro chore a hfind
    unfold processComplete
    rw [hfind]

/-- Witness for `tracker_disambiguation` on a store with two pending chores
for the same person. -/
theorem tracker_disambiguation_witness :
    doneMatches "a" "W" histC6 = [recC6a, recC6b] ∧
    processDone "a" "W" 7 histC6 = (.disambiguate [recC6a, recC6b], histC6) :=
  ⟨by decide,
   (tracker_disambiguation "a" "W" 7 histC6 [recC6a, recC6b] (by decide) (by decide)).1⟩

theorem assignOne_assignments_shape (cfg : Config) (month week : String)
    (now weekOffset : Nat) (hist allWeek : List Assignment) (picks : Nat → Nat)
    (st : RunState) (chore : Chore) :
    (assignOne cfg month week now weekOffset hist allWeek picks st chore).assignments
        = st.assignments ∨
    ∃ b : Assignment, b.assignedTo.length = 1 ∧ b.completedBy = [] ∧
      b.triggeredBy = none ∧
      (assignOne cfg month week now weekOffset hist allWeek picks st chore).assignments
        = st.assignments ++ [b] := by
  unfold assignOne
  split
  · exact Or.inl rfl
  split
  · exact Or.inl rfl
  split
  · exact Or.inl rfl
  · refine Or.inr ⟨_, ?_, ?_, ?_, rfl⟩ <;> rfl

theorem foldl_assignOne_shape (cfg : Config) (month week : String)
    (now weekOffset : Nat) (hist allWeek : List Assignment) (picks : Nat → Nat) :
    ∀ (chores : List Chore) (st : RunState),
      ∃ extra,
        (chores.foldl (assignOne cfg month week now weekOffset hist allWeek picks)
            st).assignments
          = st.assignments ++ extra ∧
        ∀ r ∈ extra, r.assignedTo.length = 1 ∧ r.completedBy = [] ∧
          r.triggeredBy = none := by
  intro chores
  induction chores with
  | nil => exact fun st => ⟨[], by simp, by simp⟩
  | cons c cs ih =>
    intro st
    obtain ⟨extra, he, hp⟩ :=
      ih (assignOne cfg month week now weekOffset hist allWeek picks st c)
    rcases assignOne_assignments_shape cfg month week now weekOffset hist allWeek picks
        st c with h | ⟨b, hb1, hb2, hb3, h⟩
    · exact ⟨extra, by rw [List.foldl_cons, he, h], hp⟩
    · refine ⟨b :: extra, ?_, ?_⟩
      · rw [List.foldl_cons, he, h]
        simp
      · intro r hr
        rcases List.mem_cons.mp hr with h1 | h1
        · rw [h1]; exact ⟨hb1, hb2, hb3⟩
        · exact hp r h1

theorem assignChores_store_shape (cfg : Config) (hist : List Assignment)
    (isManual : Bool) (month week : String) (now weekOffset : Nat)
    (picks : Nat → Nat) (nextId : Nat) :
    ∃ newRecs,
      (assignChores cfg hist isManual month week now weekOffset picks nextId).2
          = hist ++ newRecs ∧
      ∀ r ∈ newRecs, r.assignedTo.length = 1 ∧ r.completedBy = [] ∧
        r.triggeredBy = none := by
  unfold assignChores
  dsimp only
  split
  · exact ⟨[], by simp, by simp⟩
  split
  · exact ⟨[], by simp, by simp⟩
  · obtain ⟨extra, he, hp⟩ := foldl_assignOne_shape cfg month week now weekOffset hist
      (hist.filter (fun h => decide (h.week = week))) picks cfg.chores ⟨[], [], 0, nextId⟩
    refine ⟨extra, ?_, hp⟩
    show hist ++ _ = hist ++ extra
    rw [he]
    simp

/-- C9: every record created by the scheduled allocation path has exactly
one assignee and no manual trigger mark; multi-assignee records arise only
from the ad-hoc `handleChoreAssignment` path, which stores exactly the
selected user list. -/
theorem scheduled_single_assignee (cfg : Config) (hist : List Assignment)
    (isManual : Bool) (month week : String) (now weekOffset : Nat)
    (picks : Nat → Nat) (nextId : Nat) :
    (∃ newRecs,
      (assignChores cfg hist isManual month week now weekOffset picks nextId).2
          = hist ++ newRecs ∧
      ∀ r ∈ newRecs, r.assignedTo.length = 1 ∧ r.triggeredBy = none) ∧
    (∀ choreType assignees (triggeredBy : String) (nextId2 : Nat),
      ∃ extra,
        handleChoreAssignment cfg choreType assignees triggeredBy month week now
            nextId2 hist
          = hist ++ extra ∧
        ∀ r ∈ extra, r.assignedTo = assignees.map (fun a => a.slackId) ∧
          r.completedBy = [] ∧ r.triggeredBy = some triggeredBy) := by
  constructor
  · obtain ⟨newRecs, he, hp⟩ := assignChores_store_shape cfg hist isManual month week
      now weekOffset picks nextId
    exact ⟨newRecs, he, fun r hr => ⟨(hp r hr).1, (hp r hr).2.2⟩⟩
  · intro choreType assignees triggeredBy nextId2
    unfold handleChoreAssignment
    split
    · exact ⟨[], by simp, by simp⟩
    · refine ⟨[_], rfl, ?_⟩
      intro r hr
      rw [List.mem_singleton.mp hr]
      exact ⟨rfl, rfl, rfl⟩

/-- C7 counterexample: when every scheduled chore is completed for the
cycle but a pending ad-hoc record remains, a non-manual `assignChores` call
returns that pending record, not the empty list. -/
theorem allocator_all_completed_cex :
    (cfgC7.chores.filter (fun c => decide (c.due.weekday ≠ -1))).all
        (fun c => histC7.any
          (fun h => decide (h.week = "W" ∧ h.chore = c.title ∧ h.completed = true)))
      = true ∧
    (assignChores cfgC7 histC7 false "M" "W" 0 0 (fun _ => 0) 5).1 ≠ [] := by
  constructor
  · decide
  · decide

/-- Witness for `scheduled_single_assignee` on the two-person
configuration. -/
theorem scheduled_single_assignee_witness :
    ∃ newRecs,
      (assignChores cexConfig cexHist false "M" "W1" 0 0 (fun _ => 0) 1).2
          = cexHist ++ newRecs ∧
      ∀ r ∈ newRecs, r.assignedTo.length = 1 ∧ r.triggeredBy = none :=
  (scheduled_single_assignee cexConfig cexHist false "M" "W1" 0 0 (fun _ => 0) 1).1

/-- C7, amended: when every scheduled chore already has a completed record
for the cycle, the allocator creates no records and returns the empty list
provided no pending record remains (or the call is manual); and a completion
signal with zero pending matches yields the no-pending-work reply with the
store untouched. -/
theorem allocator_all_completed (cfg : Config) (hist : List Assignment)
    (isManual : Bool) (month week : String) (now weekOffset : Nat)
    (picks : Nat → Nat) (nextId : Nat) (u : String)
    (hman : pendingThisWeek week hist = [] ∨ isManual = true)
    (hcomp : ∀ c ∈ cfg.chores, c.due.weekday ≠ -1 →
      ∃ r ∈ hist, r.week = week ∧ r.chore = c.title ∧ r.completed = true)
    (hzero : doneMatches u week hist = []) :
    assignChores cfg hist isManual month week now weekOffset picks nextId = ([], hist) ∧
    processDone u week now hist = (.noPending, hist) := by
  constructor
  · unfold assignChores
    rw [if_neg, if_pos]
    · have hfull : (cfg.chores.filter (fun c => decide (c.due.weekday ≠ -1))).filter
          (fun c => (hist.filter (fun h => decide (h.week = week))).any
            (fun h => decide (h.chore = c.title ∧ h.completed = true)))
          = cfg.chores.filter (fun c => decide (c.due.weekday ≠ -1)) := by
        apply List.filter_eq_self.mpr
        intro c hc
        have hc2 := List.mem_filter.mp hc
        obtain ⟨r, hr, hw, hch, hcp⟩ :=
          hcomp c hc2.1 (of_decide_eq_true hc2.2)
        apply List.any_eq_true.mpr
        refine ⟨r, List.mem_filter.mpr ⟨hr, by simp [hw]⟩, by simp [hch, hcp]⟩
      rw [hfull]
    · intro hcond
      rcases hman with he | ht
      · rw [he] at hcond
        simp at hcond
      · rw [ht] at hcond
        simp at hcond
  · unfold processDone
    rw [hzero]

/-- Witness for `allocator_all_completed` on a store whose only scheduled
chore is completed and holds nothing pending. -/
theorem allocator_all_completed_witness :
    assignChores cfgC7 histC7w false "M" "W" 0 0 (fun _ => 0) 5 = ([], histC7w) ∧
    processDone "zz" "W" 0 histC7w = (.noPending, histC7w) :=
  allocator_all_completed cfgC7 histC7w false "M" "W" 0 0 (fun _ => 0) 5 "zz"
    (Or.inl (by decide)) (by decide) (by decide)

theorem foldl_min_mem (xs : List ℚ) : ∀ x : ℚ, xs.foldl min x ∈ x :: xs := by
  induction xs with
  | nil => intro x; exact List.mem_singleton_self x
  | cons y ys ih =>
    intro x
    rw [List.foldl_cons]
    have h := ih (min x y)
    rcases List.mem_cons.mp h with h1 | h1
    · rw [h1]
      rcases min_choice x y with hc | hc <;> rw [hc]
      · exact List.mem_cons_self _ _
      · exact List.mem_cons_of_mem _ (List.mem_cons_self _ _)
    · exact List.mem_cons_of_mem _ (List.mem_cons_of_mem _ h1)

theorem exists_min_attained (l : List Roommate) (f : Roommate → ℚ) (m : ℚ)
    (h : listMinQ (l.map f) = some m) : ∃ r ∈ l, f r = m := by
  cases l with
  | nil => simp [listMinQ] at h
  | cons r0 rs =>
    rw [List.map_cons] at h
    unfold listMinQ at h
    rw [Option.some_inj] at h
    have hm := foldl_min_mem (rs.map f) (f r0)
    rw [h] at hm
    rcases List.mem_cons.mp hm with h1 | h1
    · exact ⟨r0, List.mem_cons_self _ _, h1.symm⟩
    · obtain ⟨rr, hrr, he⟩ := List.mem_map.mp h1
      exact ⟨rr, List.mem_cons_of_mem _ hrr, he⟩

theorem findNextAssignee_isSome (roommates : List Roommate) (month : String)
    (hist : List Assignment) (pick : Nat) (hne : roommates ≠ []) :
    ∃ r, findNextAssignee roommates month hist pick = some r := by
  unfold findNextAssignee
  dsimp only
  cases hq : listMinQ (roommates.map (fun r =>
      monthlyCount (roommates.map (fun x => x.slackId)) month hist r.slackId)) with
  | none =>
    cases roommates with
    | nil => exact absurd rfl hne
    | cons r0 rs =>
      rw [List.map_cons] at hq
      unfold listMinQ at hq
      exact absurd hq (by simp)
  | some m =>
    obtain ⟨rr, hrr, he⟩ := exists_min_attained roommates _ m hq
    have hcand : rr ∈ roommates.filter (fun r =>
        decide (monthlyCount (roommates.map (fun x => x.slackId)) month hist r.slackId = m)) :=
      List.mem_filter.mpr ⟨hrr, by simp [he]⟩
    have hlen : 0 < (roommates.filter (fun r =>
        decide (monthlyCount (roommates.map (fun x => x.slackId)) month hist
          r.slackId = m))).length :=
      List.length_pos.mpr (List.ne_nil_of_mem hcand)
    have hmod := Nat.mod_lt pick hlen
    cases hget : (roommates.filter (fun r =>
        decide (monthlyCount (roommates.map (fun x => x.slackId)) month hist
          r.slackId = m))).get? (pick % (roommates.filter (fun r =>
        decide (monthlyCount (roommates.map (fun x => x.slackId)) month hist
          r.slackId = m))).length) with
    | none =>
      rw [List.get?_eq_none] at hget
      omega
    | some r2 =>
      exact ⟨r2, hget⟩

/-- C2 counterexample: with a two-person roster and two scheduled chores
(so roster size is not smaller than the chore count) and Alice the unique
minimum-credit candidate, a single run assigns both chores to Alice:
the blind re-draws of the retry loop cannot reach an unassigned person. -/
theorem batch_dedup_cex :
    cexConfig.chores.length ≤ cexConfig.roommates.length ∧
    ((assignChores cexConfig cexHist false "M" "W1" 0 0 (fun _ => 0) 1).1.map
        (fun r => r.assignedTo)) = [["A"], ["A"]] := by
  constructor
  · decide
  · with_unfolding_all decide

/-- C2, amended: the de-duplication retry loop is bounded by roster-size
attempts, and it hands back an already-assigned person only when the initial
selection and every re-draw landed on already-assigned people — a preference
that random re-draws cannot guarantee, so the same person can receive two
chores in one run even when the roster is at least as large as the chore
list. -/
theorem retrySelect_bounded (roommates : List Roommate) (month : String)
    (hist : List Assignment) (assigned : List String) (picks : Nat → Nat)
    (hne : roommates ≠ []) :
    ∀ (fuel idx : Nat) (a : Roommate),
      (retrySelect roommates month hist assigned picks idx fuel a).2 ≤ idx + fuel ∧
      ((retrySelect roommates month hist assigned picks idx fuel a).1.slackId ∈ assigned →
        a.slackId ∈ assigned ∧
        ∀ j, idx ≤ j → j < (retrySelect roommates month hist assigned picks idx fuel a).2 →
          ∃ r, findNextAssignee roommates month hist (picks j) = some r ∧
            r.slackId ∈ assigned) := by
  intro fuel
  induction fuel with
  | zero =>
    intro idx a
    refine ⟨Nat.le_add_right idx 0, fun h => ⟨h, fun j hj1 hj2 => ?_⟩⟩
    unfold retrySelect at hj2
    omega
  | succ fuel ih =>
    intro idx a
    by_cases hmem : a.slackId ∈ assigned
    · obtain ⟨a2, ha2⟩ := findNextAssignee_isSome roommates month hist (picks idx) hne
      have hred : retrySelect roommates month hist assigned picks idx (fuel + 1) a
          = retrySelect roommates month hist assigned picks (idx + 1) fuel a2 := by
        conv_lhs => rw [retrySelect]
        rw [if_pos hmem, ha2]
      rw [hred]
      obtain ⟨ihb, ihp⟩ := ih (idx + 1) a2
      refine ⟨by omega, fun h => ?_⟩
      obtain ⟨ha2mem, hall⟩ := ihp h
      refine ⟨hmem, fun j hj1 hj2 => ?_⟩
      rcases Nat.eq_or_lt_of_le hj1 with he | hlt
      · refine ⟨a2, ?_, ha2mem⟩
        rw [← he]
        exact ha2
      · exact hall j hlt hj2
    · have hred : retrySelect roommates month hist assigned picks idx (fuel + 1) a
          = (a, idx) := by
        unfold retrySelect
        rw [if_neg hmem]
      rw [hred]
      exact ⟨Nat.le_add_right idx _, fun h => ⟨h, fun j hj1 hj2 => by omega⟩⟩

/-- Witness for `retrySelect_bounded` on the two-person roster with Alice
already assigned. -/
theorem retrySelect_bounded_witness :
    (retrySelect cexRoster "M" cexHist ["A"] (fun _ => 0) 2 2 ⟨"A", "Alice"⟩).2 ≤ 2 + 2 :=
  ((retrySelect_bounded cexRoster "M" cexHist ["A"] (fun _ => 0) (by decide)) 2 2
    ⟨"A", "Alice"⟩).1

theorem applyDone_preserves_sub (u : String) (now : Nat) (r : Assignment)
    (hr : ∀ v ∈ r.completedBy, v ∈ r.assignedTo) (hu : u ∈ r.assignedTo) :
    ∀ v ∈ (applyDoneMessage u now r).completedBy,
      v ∈ (applyDoneMessage u now r).assignedTo := by
  intro v hv
  rw [applyDoneMessage_assignedTo]
  rcases applyDoneMessage_completedBy_cases u now r v hv with h | h
  · exact hr v h
  · rw [h]
    exact hu

theorem completeMatch_facts (u week chore : String) (hist : List Assignment)
    (a : Assignment) (h : completeMatch u week chore hist = some a) :
    a ∈ hist ∧ u ∈ a.assignedTo := by
  unfold completeMatch at h
  have h1 := List.mem_of_find?_eq_some h
  have h2 := List.find?_some h
  simp only [decide_eq_true_eq] at h2
  exact ⟨h1, h2.2.2.2⟩

/-- C8: `completedBy` stays a subset of `assignees` across every modelled
operation: allocation and the ad-hoc path create records with empty
`completedBy`, and both completion paths add the sender only to records that
list the sender among the assignees. -/
theorem completedBy_subset_invariant (hist : List Assignment)
    (hinv : InvStore hist) (hids : (hist.map (fun r => r.id)).Nodup) :
    (∀ cfg isManual month week (now weekOffset : Nat) (picks : Nat → Nat) (nextId : Nat),
      InvStore (assignChores cfg hist isManual month week now weekOffset picks nextId).2) ∧
    (∀ cfg choreType assignees (triggeredBy month week : String) (now nextId : Nat),
      InvStore (handleChoreAssignment cfg choreType assignees triggeredBy month week
        now nextId hist)) ∧
    (∀ (u week : String) (now : Nat), InvStore (processDone u week now hist).2) ∧
    (∀ (u week chore : String) (now : Nat),
      InvStore (processComplete u week chore now hist).2) := by
  have hbm : applyDoneButton = applyDoneMessage := rfl
  refine ⟨?_, ?_, ?_, ?_⟩
  · intro cfg isManual month week now weekOffset picks nextId
    obtain ⟨newRecs, he, hp⟩ := assignChores_store_shape cfg hist isManual month week
      now weekOffset picks nextId
    rw [he]
    intro r hr
    rcases List.mem_append.mp hr with h | h
    · exact hinv r h
    · rw [(hp r h).2.1]
      intro uid hu
      exact absurd hu (List.not_mem_nil uid)
  · intro cfg choreType assignees triggeredBy month week now nextId
    unfold handleChoreAssignment
    split
    · exact hinv
    · intro r hr
      rcases List.mem_append.mp hr with h | h
      · exact hinv r h
      · rw [List.mem_singleton.mp h]
        intro uid hu
        exact absurd hu (List.not_mem_nil uid)
  · intro u week now
    unfold processDone
    cases hm : doneMatches u week hist with
    | nil => exact hinv
    | cons a tail =>
      cases tail with
      | nil =>
        intro r hr
        obtain ⟨r0, hr0, hfr⟩ := List.mem_map.mp hr
        rw [← hfr]
        by_cases hid : r0.id = a.id
        · rw [if_pos hid]
          obtain ⟨haMem, -, -, hu⟩ := doneMatches_single_facts u week hist a hm
          have heq : r0 = a := List.inj_on_of_nodup_map hids hr0 haMem hid
          exact applyDone_preserves_sub u now r0 (hinv r0 hr0) (by rw [heq]; exact hu)
        · rw [if_neg hid]
          exact hinv r0 hr0
      | cons b tail2 => exact hinv
  · intro u week chore now
    unfold processComplete
    cases hf : completeMatch u week chore hist with
    | none => exact hinv
    | some a =>
      intro r hr
      obtain ⟨r0, hr0, hfr⟩ := List.mem_map.mp hr
      rw [← hfr]
      by_cases hid : r0.id = a.id
      · rw [if_pos hid, hbm]
        obtain ⟨haMem, hu⟩ := completeMatch_facts u week chore hist a hf
        have heq : r0 = a := List.inj_on_of_nodup_map hids hr0 haMem hid
        exact applyDone_preserves_sub u now r0 (hinv r0 hr0) (by rw [heq]; exact hu)
      · rw [if_neg hid]
        exact hinv r0 hr0

/-- Witness for `completedBy_subset_invariant` on a store with one pending
shared record. -/
theorem completedBy_subset_invariant_witness :
    InvStore histC5 ∧ InvStore (processDone "a" "W" 7 histC5).2 :=
  ⟨by decide, (completedBy_subset_invariant histC5 (by decide) (by decide)).2.2.1 "a" "W" 7⟩

theorem foldl_add_count (pid : String) (rosterIds : List String) (c : ℚ) :
    ∀ (l : List String) (init : ℚ),
      l.foldl (fun acc aid => if aid = pid ∧ aid ∈ rosterIds then acc + c else acc) init
        = init + (l.countP (fun aid => decide (aid = pid ∧ aid ∈ rosterIds)) : ℚ) * c := by
  intro l
  induction l with
  | nil =>
    intro init
    simp
  | cons aid l ih =>
    intro init
    rw [List.foldl_cons]
    by_cases h : aid = pid ∧ aid ∈ rosterIds
    · rw [if_pos h, ih, List.countP_cons, if_pos (by simp [h.1, h.1 ▸ h.2])]
      push_cast
      ring
    · rw [if_neg h, ih, List.countP_cons, if_neg (by simp [h]), Nat.add_zero]

theorem countP_eq_count (l : List String) (pid : String) (rosterIds : List String)
    (hpid : pid ∈ rosterIds) :
    l.countP (fun aid => decide (aid = pid ∧ aid ∈ rosterIds)) = l.count pid := by
  induction l with
  | nil => rfl
  | cons a l ih =>
    rw [List.countP_cons, List.count_cons, ih]
    by_cases h : a = pid
    · simp [h, hpid]
    · simp [h]

theorem recordCreditTo_eq_count (rosterIds : List String) (pid : String)
    (h : Assignment) (hpid : pid ∈ rosterIds) :
    recordCreditTo rosterIds pid h
      = (h.assignedTo.count pid : ℚ) * creditPerPerson h := by
  unfold recordCreditTo
  rw [foldl_add_count, zero_add, countP_eq_count _ _ _ hpid]

theorem foldl_add_eq_sum (f : Assignment → ℚ) :
    ∀ (l : List Assignment) (init : ℚ),
      l.foldl (fun acc h => acc + f h) init = init + (l.map f).sum := by
  intro l
  induction l with
  | nil =>
    intro init
    simp
  | cons h t ih =>
    intro init
    rw [List.foldl_cons, ih, List.map_cons, List.sum_cons]
    ring

/-- C1 counterexample: a record shared by three people credits each
participant one half under the allocator's count, while the specification's
`1 / |assignees|` formula yields one third. -/
theorem sharedCredit_cex :
    monthlyCount ["a", "b", "c"] "M" [rec3] "a" ≠ specLoadCount "M" [rec3] "a" := by
  with_unfolding_all decide

/-- C1, amended: the allocator credits each assignee of an in-window record
`0.5` when the record is shared (its `isShared` flag is set or it has more
than one assignee) and `1` otherwise; this equals the specification's
`1 / |assignees|` exactly on histories whose in-window records have no
duplicate assignee, at most two assignees, and an `isShared` flag consistent
with the assignee count — a two-person shared chore does credit each `0.5`,
but a three-person one credits `0.5`, not `1/3`. -/
theorem sharedCredit_amended (rosterIds : List String) (month : String)
    (hist : List Assignment) (pid : String) (hpid : pid ∈ rosterIds)
    (hrec : ∀ h ∈ hist, h.month = month →
      h.assignedTo.Nodup ∧
      ((h.isShared = true ∨ 1 < h.assignedTo.length) → h.assignedTo.length = 2)) :
    monthlyCount rosterIds month hist pid = specLoadCount month hist pid := by
  unfold monthlyCount specLoadCount
  rw [foldl_add_eq_sum, zero_add]
  induction hist with
  | nil => rfl
  | cons x t ih =>
    have ihr := ih (fun y hy hm => hrec y (List.mem_cons_of_mem _ hy) hm)
    by_cases hmon : x.month = month
    · rw [List.filter_cons_of_pos (by simp [hmon]), List.map_cons, List.sum_cons]
      by_cases hin : pid ∈ x.assignedTo
      · rw [List.filter_cons_of_pos (by simp [hmon, hin]), List.map_cons,
          List.sum_cons, ihr]
        congr 1
        obtain ⟨hnd, hsh⟩ := hrec x (List.mem_cons_self _ _) hmon
        rw [recordCreditTo_eq_count rosterIds pid x hpid,
          List.count_eq_one_of_mem hnd hin]
        push_cast
        rw [one_mul]
        unfold creditPerPerson
        by_cases hs : x.isShared = true ∨ 1 < x.assignedTo.length
        · rw [if_pos hs, hsh hs]
          norm_num
        · rw [if_neg hs]
          have h0 : 0 < x.assignedTo.length :=
            List.length_pos.mpr (List.ne_nil_of_mem hin)
          have h1 : x.assignedTo.length = 1 := by
            push_neg at hs
            omega
          rw [h1]
          norm_num
      · rw [List.filter_cons_of_neg (by simp [hin]), ihr,
          recordCreditTo_eq_count rosterIds pid x hpid,
          List.count_eq_zero_of_not_mem hin]
        push_cast
        ring
    · rw [List.filter_cons_of_neg (by simp [hmon]),
        List.filter_cons_of_neg (by simp [hmon]), ihr]

/-- Witness for `sharedCredit_amended` on a history of a two-person shared
record and a solo record. -/
theorem sharedCredit_amended_witness :
    monthlyCount ["a", "b"] "M" histC1 "a" = specLoadCount "M" histC1 "a" :=
  sharedCredit_amended ["a", "b"] "M" histC1 "a" (by decide) (by decide)

end ChoreBot
